import Mathlib

/-!
# Verification of the S3 archival pipeline (`main.py`)

A shallow embedding of the weekly sync-archive-upload script.  Pure helpers
(`calculate_size_savings`, key naming) become Lean functions; the filesystem
mutating parts (`cleanup_local_resources`, `create_tar_gz_archive`) become
explicit state passing over a small filesystem model, with the removal
operations issued in exactly the order the source issues them; external
library behaviour (`os.path.join`, `str.endswith`, `tarfile`, `gzip`) is
embedded at the interface level documented for those libraries.
-/

namespace S3Archival

/-! ## Python string primitives

`str.endswith` / `str.startswith` compare raw character sequences; we model
strings by their `.data` character lists. -/

/-- Python `s.startswith(pre)`. -/
def pyStartsWith (s pre : String) : Bool :=
  pre.data.isPrefixOf s.data

/-- Python `s.endswith(suf)`. -/
def pyEndsWith (s suf : String) : Bool :=
  suf.data.isSuffixOf s.data

/-- POSIX `os.path.join(a, b)` for two components, as implemented in
`posixpath.join`: an absolute `b` discards `a`; otherwise a `/` separator is
inserted unless `a` is empty or already ends with `/`. -/
def pyJoin (a b : String) : String :=
  if pyStartsWith b "/" then b
  else if a = "" then b
  else if pyEndsWith a "/" then a ++ b
  else a ++ "/" ++ b

/-- Python `os.path.basename(p)`: the text after the last `/`
(`p[p.rfind(chr(47))+1:]`); empty when `p` ends with a separator. -/
def pyBasename (p : String) : String :=
  String.mk ((p.data.reverse.takeWhile (fun c => c ≠ '/')).reverse)

/-- Exceptions the script can raise or propagate. -/
inductive PyErr where
  | zeroDivision : PyErr
  | osError : PyErr
  | transferError : PyErr
deriving DecidableEq

/-- Python true division on rationals: raises `ZeroDivisionError` on a zero
denominator, otherwise returns the exact quotient. -/
def pyDiv (a b : Rat) : Except PyErr Rat :=
  if b = 0 then .error .zeroDivision else .ok (a / b)

/-! ## Savings Reporter (`calculate_size_savings`, main.py:108-112) -/

/-- `calculate_size_savings(original_size, compressed_size)`:
`savings = original_size - compressed_size`;
`savings_percent = (savings / original_size) * 100` (true division, which
raises `ZeroDivisionError` when `original_size == 0`). -/
def calculate_size_savings (original_size compressed_size : Int) :
    Except PyErr (Int × Rat) :=
  let savings := original_size - compressed_size
  match pyDiv (savings : Rat) (original_size : Rat) with
  | .error e => .error e
  | .ok q => .ok (savings, q * 100)

/-! ## Directory listings

A local directory tree, as `os.listdir`/`os.walk` enumerate it.  A `DirList`
is the ordered listing of one directory; each element is either a regular
file with its byte content or a subdirectory with its own listing. -/

/-- Ordered listing of a directory: `nil`, a `file name content rest` entry,
or a `dir name children rest` entry. -/
inductive DirList where
  | nil : DirList
  | file (name : String) (content : List Nat) (rest : DirList) : DirList
  | dir (name : String) (children : DirList) (rest : DirList) : DirList
deriving DecidableEq

/-- Names of the regular files of a listing (one directory level). -/
def fileNamesOf : DirList → List String
  | .nil => []
  | .file n _ r => n :: fileNamesOf r
  | .dir _ _ r => fileNamesOf r

/-- Names of the subdirectories of a listing (one directory level). -/
def dirNamesOf : DirList → List String
  | .nil => []
  | .file _ _ r => dirNamesOf r
  | .dir n _ r => n :: dirNamesOf r

/-- A filename is valid when nonempty and free of the path separator. -/
def validName (n : String) : Bool :=
  !(n = "") && n.data.all (fun c => c ≠ '/')

/-- Every name in the tree (files and directories, recursively) is a valid
filename. -/
def validNames : DirList → Bool
  | .nil => true
  | .file n _ r => validName n && validNames r
  | .dir n ch r => validName n && validNames ch && validNames r

/-- The names listed in each directory of the tree (recursively, for the
sub-listings `ch` of `dir` entries) are pairwise distinct. -/
def nodupBelow : DirList → Bool
  | .nil => true
  | .file _ _ r => nodupBelow r
  | .dir _ ch r =>
      (decide (fileNamesOf ch ++ dirNamesOf ch).Nodup && nodupBelow ch) &&
        nodupBelow r

/-- A realizable on-disk tree: distinct names within the listing itself and
within every subdirectory. -/
def nodupTree (l : DirList) : Bool :=
  decide (fileNamesOf l ++ dirNamesOf l).Nodup && nodupBelow l

/-! ## Archive Builder (`create_tar_gz_archive`, main.py:80-91)

`tarfile.open(tar_path, 'w')` followed by `tar.add(source_dir,
arcname=os.path.basename(source_dir))` serializes the tree into a tar
container: one entry per directory and per file, the entry name of a child
being `os.path.join(parent_entry_name, child_name)`.  We model the container
by its entry list (the tar byte format is a lossless encoding of it), and
the gzip output by the pair of its header `MTIME` field and its payload:
`gzip.open(gz_path, 'wb')` constructs `GzipFile` with `mtime=None`, which
stores the current wall-clock second in the 4-byte `MTIME` header field
(RFC 1952), so the output byte stream is a function of exactly (payload,
compression time) at fixed compression settings. -/

/-- A tar container entry: a directory name or a file name with content. -/
inductive TEntry where
  | dir (path : String) : TEntry
  | file (path : String) (content : List Nat) : TEntry
deriving DecidableEq

/-- Entries contributed by `tar.add` for each member of a listing, the
member of entry name `arc`.  `tar.add` on a directory adds the directory's
own entry and then recurses into its listing. -/
def tarAddList (arc : String) : DirList → List TEntry
  | .nil => []
  | .file n c rest => .file (pyJoin arc n) c :: tarAddList arc rest
  | .dir n ch rest =>
      (.dir (pyJoin arc n) :: tarAddList (pyJoin arc n) ch) ++ tarAddList arc rest

/-- `tar.add(source_dir, arcname=os.path.basename(source_dir))`: the root
directory entry followed by the recursive entries. -/
def tarAdd (source_dir : String) (listing : DirList) : List TEntry :=
  .dir (pyBasename source_dir) :: tarAddList (pyBasename source_dir) listing

/-- The gzip output stream, determined by the header `MTIME` field and the
compressed payload (lossless, fixed settings). -/
structure GzFile where
  mtime : Nat
  payload : List TEntry
deriving DecidableEq

/-- Decompressing the gzip stream and unpacking the tar container: gzip and
tar are lossless, so the entry list is recovered exactly. -/
def gunzipUntar (g : GzFile) : List TEntry :=
  g.payload

/-- A fault injected into a run of `create_tar_gz_archive`: an entry
traversal/read failure inside `tar.add`, or a read/write failure while
streaming the tar file into the gzip file. -/
inductive BuildFault where
  | duringAdd : BuildFault
  | duringCompress : BuildFault
deriving DecidableEq

deriving instance DecidableEq for Except

/-- Observable outcome of one run of `create_tar_gz_archive`: its return
value (or propagated exception) and which artifacts remain on local disk. -/
structure BuildResult where
  result : Except PyErr String
  tarPresent : Bool
  gzPresent : Bool
  gzComplete : Option GzFile
deriving DecidableEq

/-- `create_tar_gz_archive(source_dir, output_filename)` (main.py:80-91),
with an optional injected fault.  `tarfile.open(tar_path, 'w')` creates the
intermediate `<output>.tar` as soon as the function starts; the function has
no `try`/`finally`, so `os.remove(tar_path)` (line 89) runs only when both
`with` blocks completed without raising: a fault during `tar.add` leaves the
partial tar on disk, and a fault during the gzip streaming leaves both the
tar and a partial `<output>.tar.gz` on disk. -/
def create_tar_gz_archive (source_dir : String) (listing : DirList)
    (now : Nat) (output_filename : String) (fault : Option BuildFault) :
    BuildResult :=
  match fault with
  | some .duringAdd =>
      { result := .error .osError, tarPresent := true, gzPresent := false,
        gzComplete := none }
  | some .duringCompress =>
      { result := .error .osError, tarPresent := true, gzPresent := true,
        gzComplete := none }
  | none =>
      { result := .ok (output_filename ++ ".tar.gz"), tarPresent := false,
        gzPresent := true,
        gzComplete := some ⟨now, tarAdd source_dir listing⟩ }

/-- The files of the source tree, addressed by their path relative to the
source directory (separator `/`), with their byte contents. -/
def relFiles : DirList → List (String × List Nat)
  | .nil => []
  | .file n c rest => (n, c) :: relFiles rest
  | .dir n ch rest =>
      (relFiles ch).map (fun rc => (n ++ "/" ++ rc.1, rc.2)) ++ relFiles rest

/-- The file entries of a tar container, as (path, content) pairs. -/
def fileEntriesOf : List TEntry → List (String × List Nat)
  | [] => []
  | .dir _ :: rest => fileEntriesOf rest
  | .file p c :: rest => (p, c) :: fileEntriesOf rest

/-! ## Selective Mirror (`download_files`, main.py:35-54)

Pure model of the success path: the function walks the bucket listing in
order, skips every object whose key ends with one of the ignore patterns
(`any(obj.key.endswith(pattern) for pattern in ignore_patterns)`), and
materializes each kept object at `os.path.join('/tmp/s3_files/', obj.key)`.
We return the list of (local path, content) pairs written. -/

/-- A remote S3 object: a key and its byte content. -/
structure RemoteObject where
  key : String
  content : List Nat
deriving DecidableEq

/-- `local_dir` in `download_files`. -/
def localDirRoot : String := "/tmp/s3_files/"

/-- `download_files(s3, bucket_name, ignore_patterns=None)`: the local files
written by a successful run, in bucket listing order.  A `None` pattern list
defaults to `[]`. -/
def download_files (objs : List RemoteObject)
    (ignore_patterns : Option (List String)) : List (String × List Nat) :=
  let pats := ignore_patterns.getD []
  objs.filterMap fun o =>
    if pats.any (fun pattern => pyEndsWith o.key pattern) then none
    else some (pyJoin localDirRoot o.key, o.content)

/-! ## Run Finalizer (`cleanup_local_resources`, main.py:56-78)

The function iterates over the three managed paths.  For a directory it
issues `os.remove` for every file and `os.rmdir` for every subdirectory of
each `os.walk(path, topdown=False)` triple (children triples first), then
`os.rmdir(path)`; for a regular file it issues `os.remove(path)`; a missing
path is skipped.  We model the filesystem as finite sets of file paths and
directory paths (paths as component lists), generate exactly that operation
sequence, and execute it under POSIX semantics: `os.remove` fails on a
missing file, `os.rmdir` fails on a missing or non-empty directory. -/

/-- A filesystem path, as its list of components. -/
abbrev FPath := List String

/-- Filesystem state: the existing regular files and directories. -/
structure PathFS where
  files : Finset FPath
  dirs : Finset FPath
deriving DecidableEq

/-- A removal operation issued by the cleanup loop. -/
inductive Op where
  | rm (p : FPath) : Op
  | rmdir (p : FPath) : Op
deriving DecidableEq

/-- `os.rmdir p` succeeds iff `p` is an existing directory with no file and
no other directory below it. -/
def RmdirOk (fs : PathFS) (p : FPath) : Prop :=
  p ∈ fs.dirs ∧ (∀ q ∈ fs.files, ¬ p <+: q) ∧ (∀ q ∈ fs.dirs, p <+: q → q = p)

instance (fs : PathFS) (p : FPath) : Decidable (RmdirOk fs p) := by
  unfold RmdirOk; infer_instance

/-- Execute one removal operation. -/
def execOp (fs : PathFS) : Op → Except Unit PathFS
  | .rm p =>
      if p ∈ fs.files then .ok ⟨fs.files.erase p, fs.dirs⟩ else .error ()
  | .rmdir p =>
      if RmdirOk fs p then .ok ⟨fs.files, fs.dirs.erase p⟩ else .error ()

/-- Execute a sequence of removal operations, stopping at the first
failure (the Python loop propagates the first `OSError`). -/
def execOps : List Op → PathFS → Except Unit PathFS
  | [], fs => .ok fs
  | op :: rest, fs =>
      match execOp fs op with
      | .ok fs1 => execOps rest fs1
      | .error e => .error e

/-- Removal operations for the strict interiors of the subdirectories of a
listing: for each `dir` entry, the operations of `os.walk(child,
topdown=False)` — which remove everything below the child but not the child
directory itself (the child is removed by its parent's triple). -/
def childWalks (p : FPath) : DirList → List Op
  | .nil => []
  | .file _ _ r => childWalks p r
  | .dir n ch r =>
      (childWalks (p ++ [n]) ch ++
        (fileNamesOf ch).map (fun m => .rm (p ++ [n] ++ [m])) ++
        (dirNamesOf ch).map (fun m => .rmdir (p ++ [n] ++ [m]))) ++
      childWalks p r

/-- Removal operations of the `os.walk(p, topdown=False)` loop for the
directory at `p` with listing `l`: the triples of every subdirectory first
(bottom-up), then `p`'s own triple — `os.remove` for its files, `os.rmdir`
for its subdirectories.  `p` itself is not removed here. -/
def walkOps (p : FPath) (l : DirList) : List Op :=
  childWalks p l ++ (fileNamesOf l).map (fun n => .rm (p ++ [n])) ++
    (dirNamesOf l).map (fun n => .rmdir (p ++ [n]))

/-- The file paths of the tree rooted at `p` with listing `l`. -/
def filesUnder (p : FPath) : DirList → Finset FPath
  | .nil => ∅
  | .file n _ r => insert (p ++ [n]) (filesUnder p r)
  | .dir n ch r => filesUnder (p ++ [n]) ch ∪ filesUnder p r

/-- The directory paths strictly below `p` for listing `l` (`p` itself is
not included). -/
def dirsUnder (p : FPath) : DirList → Finset FPath
  | .nil => ∅
  | .file _ _ r => dirsUnder p r
  | .dir n ch r => insert (p ++ [n]) (dirsUnder (p ++ [n]) ch) ∪ dirsUnder p r

/-- The file paths strictly inside subdirectories of the listing. -/
def subFilesUnder (p : FPath) : DirList → Finset FPath
  | .nil => ∅
  | .file _ _ r => subFilesUnder p r
  | .dir n ch r => filesUnder (p ++ [n]) ch ∪ subFilesUnder p r

/-- The directory paths strictly inside subdirectories of the listing (the
subdirectories themselves excluded). -/
def subDirsUnder (p : FPath) : DirList → Finset FPath
  | .nil => ∅
  | .file _ _ r => subDirsUnder p r
  | .dir n ch r => dirsUnder (p ++ [n]) ch ∪ subDirsUnder p r

/-- The immediate subdirectory paths of the listing. -/
def topDirPaths (p : FPath) (l : DirList) : Finset FPath :=
  ((dirNamesOf l).map (fun n => p ++ [n])).toFinset

/-- The immediate file paths of the listing. -/
def levelFilePaths (p : FPath) (l : DirList) : Finset FPath :=
  ((fileNamesOf l).map (fun n => p ++ [n])).toFinset

/-- `'/tmp/s3_files/'` as a component path. -/
def tmpRootP : FPath := ["tmp", "s3_files"]

/-- `'/tmp/weekly-archive.tar.gz'` as a component path. -/
def archiveP : FPath := ["tmp", "weekly-archive.tar.gz"]

/-- `'/tmp/s3_compression_log.txt'` as a component path. -/
def logP : FPath := ["tmp", "s3_compression_log.txt"]

/-- The loop body of `cleanup_local_resources` for one managed path: a
directory is emptied bottom-up (files before directories, deepest first)
and then removed; a regular file is removed; a missing path is skipped.
`l` is the listing `os.walk` observes when the path is a directory. -/
def pathCleanupOps (fs : PathFS) (p : FPath) (l : DirList) : List Op :=
  if p ∈ fs.dirs then walkOps p l ++ [.rmdir p]
  else if p ∈ fs.files then [.rm p]
  else []

/-- Execute the cleanup loop body for one managed path. -/
def cleanupStep (fs : PathFS) (p : FPath) (l : DirList) : Except Unit PathFS :=
  execOps (pathCleanupOps fs p l) fs

/-- `cleanup_local_resources()` over filesystem `fs`, where `l` is the
listing of `/tmp/s3_files/` (ignored when that directory does not exist;
the archive and log paths are regular files in every state the script
produces, so they are walked with an empty listing should they ever be
directories). -/
def cleanup_local_resources (fs : PathFS) (l : DirList) : Except Unit PathFS :=
  match cleanupStep fs tmpRootP l with
  | .error e => .error e
  | .ok fs1 =>
      match cleanupStep fs1 archiveP .nil with
      | .error e => .error e
      | .ok fs2 => cleanupStep fs2 logP .nil

/-- Hypotheses tying a filesystem state to the cleanup model: the files and
directories split into the tree under `/tmp/s3_files/` (listing `l`) and a
remainder `F`/`D` lying outside that tree; the working root itself is in `D`
when it exists (otherwise `l` is the empty listing); the archive and log
paths are not directories. -/
def CleanupPre (fs : PathFS) (l : DirList) (F D : Finset FPath) : Prop :=
  fs.files = filesUnder tmpRootP l ∪ F ∧
  fs.dirs = dirsUnder tmpRootP l ∪ D ∧
  nodupTree l = true ∧
  (∀ q ∈ F, ¬ tmpRootP <+: q) ∧
  (∀ q ∈ D, tmpRootP <+: q → q = tmpRootP) ∧
  (tmpRootP ∈ D ∨ (l = .nil ∧ tmpRootP ∉ D)) ∧
  archiveP ∉ fs.dirs ∧ logP ∉ fs.dirs

instance (fs : PathFS) (l : DirList) (F D : Finset FPath) :
    Decidable (CleanupPre fs l F D) := by
  unfold CleanupPre; infer_instance

/-! ## Naming and orchestration (`main`, main.py:120-146; `upload_log_to_s3`,
main.py:114-118; `__main__` guard, main.py:148-154) -/

/-- A broken-down local time, as `time.strftime` receives it. -/
structure Tm where
  year : Nat
  month : Nat
  mday : Nat
  hour : Nat
  minute : Nat
  second : Nat

/-- Two-digit zero padding, as `strftime` applies to `%m %d %H %M %S`. -/
def pad2 (n : Nat) : String :=
  if n < 10 then "0" ++ Nat.repr n else Nat.repr n

/-- `time.strftime('%Y-%m-%d-%H-%M-%S')` on a broken-down time. -/
def strftimeRun (t : Tm) : String :=
  Nat.repr t.year ++ "-" ++ pad2 t.month ++ "-" ++ pad2 t.mday ++ "-" ++
    pad2 t.hour ++ "-" ++ pad2 t.minute ++ "-" ++ pad2 t.second

/-- `s3_log_directory` in `main`. -/
def s3LogDirectory : String := "archival-logs"

/-- `archive_name = f"weekly-archive-{timestamp}.tar.gz"` (main.py:134). -/
def archiveKeyOf (timestamp : String) : String :=
  "weekly-archive-" ++ timestamp ++ ".tar.gz"

/-- `s3_log_path = f"{s3_log_directory}/python-log-{timestamp}.txt"`
(main.py:116). -/
def logKeyOf (s3_log_directory timestamp : String) : String :=
  s3_log_directory ++ "/python-log-" ++ timestamp ++ ".txt"

/-- The two object keys `main` uploads under.  `clock i` is the wall-clock
reading at step `i` of the run; `main` calls `time.strftime` exactly once,
at line 123 (step 0), and threads the resulting string to both the archive
key (line 134) and `upload_log_to_s3` (line 143). -/
def mainRunKeys (clock : Nat → Tm) : String × String :=
  let timestamp := strftimeRun (clock 0)
  (archiveKeyOf timestamp, logKeyOf s3LogDirectory timestamp)

/-- Outcome of the `__main__` guard: process exit status, whether the error
was written to the log, and the final filesystem state. -/
structure GuardOutcome where
  exitCode : Nat
  errorLogged : Bool
  fsAfter : PathFS
deriving DecidableEq

/-- The `if __name__ == "__main__"` guard (main.py:148-154): `main()` in a
`try`; on any `Exception` the guard logs the error and calls
`cleanup_local_resources()`, then falls off the end of the script — the
exception is not re-raised, so the interpreter exits with status 0; only an
exception escaping the `except` block (a cleanup failure) would terminate
the process with a non-zero status. -/
def mainGuard (mainResult : Except PyErr Unit) (fs : PathFS) (l : DirList) :
    GuardOutcome :=
  match mainResult with
  | .ok _ => ⟨0, false, fs⟩
  | .error _ =>
      match cleanup_local_resources fs l with
      | .ok fs1 => ⟨0, true, fs1⟩
      | .error _ => ⟨1, true, fs⟩

/-! ## Concrete fixtures used to instantiate the theorems -/

/-- A small mirrored tree: `docs/a.txt` and `b.txt`. -/
def sampleListing : DirList :=
  .dir "docs" (.file "a.txt" [1, 2] .nil) (.file "b.txt" [3] .nil)

/-- The unmanaged remainder files of the sample state. -/
def sampleF : Finset FPath := {archiveP, logP, ["tmp", "other.txt"]}

/-- The unmanaged remainder directories of the sample state (plus the
working root itself). -/
def sampleD : Finset FPath := {["tmp"], tmpRootP}

/-- A concrete filesystem state after a run: the mirrored tree under
`/tmp/s3_files/`, the archive, the log, and an unrelated file. -/
def sampleFS : PathFS :=
  ⟨{["tmp", "s3_files", "docs", "a.txt"], ["tmp", "s3_files", "b.txt"],
      archiveP, logP, ["tmp", "other.txt"]},
    {["tmp"], tmpRootP, ["tmp", "s3_files", "docs"]}⟩

/-- A one-file listing used by the archive counterexamples. -/
def oneFileListing : DirList := .file "data.txt" [104] .nil

/-! ## Facts about the Python string primitives -/

theorem pyStartsWith_slash_iff (s : String) :
    pyStartsWith s "/" = true ↔ ∃ t, s.data = '/' :: t := by
  unfold pyStartsWith
  rw [List.isPrefixOf_iff_prefix]
  constructor
  · rintro ⟨t, ht⟩
    exact ⟨t, by simpa using ht.symm⟩
  · rintro ⟨t, ht⟩
    exact ⟨t, by simp [ht]⟩

theorem pyEndsWith_slash_iff (s : String) :
    pyEndsWith s "/" = true ↔ ∃ t, s.data = t ++ ['/'] := by
  unfold pyEndsWith
  rw [List.isSuffixOf_iff_suffix]
  constructor
  · rintro ⟨t, ht⟩
    exact ⟨t, by simpa using ht.symm⟩
  · rintro ⟨t, ht⟩
    exact ⟨t, by simp [ht]⟩

theorem validName_data {n : String} (h : validName n = true) :
    n.data ≠ [] ∧ '/' ∉ n.data := by
  unfold validName at h
  rw [Bool.and_eq_true, Bool.not_eq_true', decide_eq_false_iff_not] at h
  obtain ⟨h1, h2⟩ := h
  rw [List.all_eq_true] at h2
  refine ⟨fun hd => h1 (String.ext (by simpa using hd)), fun hm => ?_⟩
  have := h2 _ hm
  simp at this

theorem validName_not_startsWith {n : String} (h : validName n = true) :
    pyStartsWith n "/" = false := by
  rcases validName_data h with ⟨_, hmem⟩
  rw [← Bool.not_eq_true, pyStartsWith_slash_iff]
  rintro ⟨t, ht⟩
  exact hmem (by simp [ht])

theorem validName_not_endsWith {n : String} (h : validName n = true) :
    pyEndsWith n "/" = false := by
  rcases validName_data h with ⟨_, hmem⟩
  rw [← Bool.not_eq_true, pyEndsWith_slash_iff]
  rintro ⟨t, ht⟩
  exact hmem (by simp [ht])

theorem slash_mem_append (a n : String) :
    ('/' : Char) ∈ (a ++ "/" ++ n).data := by
  rw [String.data_append, String.data_append]
  refine List.mem_append.2 (Or.inl (List.mem_append.2 (Or.inr ?_)))
  decide

theorem append_slash_ne_empty (a n : String) : a ++ "/" ++ n ≠ "" := by
  intro h
  have h2 := slash_mem_append a n
  rw [h] at h2
  exact absurd h2 (by decide)

theorem endsWith_append_slash_name {n : String} (hn : validName n = true)
    (a : String) : pyEndsWith (a ++ "/" ++ n) "/" = false := by
  rcases validName_data hn with ⟨hne, hmem⟩
  rw [← Bool.not_eq_true, pyEndsWith_slash_iff]
  rintro ⟨t, ht⟩
  rcases (List.eq_nil_or_concat n.data) with h0 | ⟨ys, y, hy⟩
  · exact hne h0
  · rw [List.concat_eq_append] at hy
    rw [String.data_append, String.data_append, hy] at ht
    have h1 : (a.data ++ "/".data ++ (ys ++ [y])).getLast? = some '/' := by
      rw [ht]; exact List.getLast?_concat t
    have h2 : (a.data ++ "/".data ++ (ys ++ [y])).getLast? = some y := by
      rw [show a.data ++ "/".data ++ (ys ++ [y]) =
            (a.data ++ "/".data ++ ys) ++ [y] by simp]
      exact List.getLast?_concat _
    rw [h1] at h2
    have hy2 : y = '/' := by simpa using h2.symm
    exact hmem (by simp [hy, hy2])

theorem pyJoin_sep {a b : String} (hb : pyStartsWith b "/" = false)
    (ha0 : a ≠ "") (ha : pyEndsWith a "/" = false) :
    pyJoin a b = a ++ "/" ++ b := by
  unfold pyJoin
  rw [hb, if_neg (by simp), if_neg (by simp [ha0]), if_neg (by simp [ha])]

theorem pyJoin_empty {b : String} (hb : pyStartsWith b "/" = false) :
    pyJoin "" b = b := by
  unfold pyJoin
  rw [hb, if_neg (by simp), if_pos rfl]

theorem startsWith_name_append {n : String} (hn : validName n = true)
    (s : String) : pyStartsWith (n ++ s) "/" = false := by
  rcases validName_data hn with ⟨hne, hmem⟩
  rw [← Bool.not_eq_true, pyStartsWith_slash_iff]
  rintro ⟨t, ht⟩
  rw [String.data_append] at ht
  rcases hd : n.data with _ | ⟨c, cs⟩
  · exact hne hd
  · rw [hd] at ht
    have hc : c = '/' := by simpa using congrArg List.head? ht
    exact hmem (by simp [hd, hc])

theorem validName_ne_empty {n : String} (hn : validName n = true) : n ≠ "" := by
  rcases validName_data hn with ⟨hne, _⟩
  exact fun h => hne (by simpa using congrArg String.data h)

theorem pyJoin_name_not_endsWith {a n : String} (ha : pyEndsWith a "/" = false)
    (hn : validName n = true) : pyEndsWith (pyJoin a n) "/" = false := by
  by_cases h0 : a = ""
  · rw [h0, pyJoin_empty (validName_not_startsWith hn)]
    exact validName_not_endsWith hn
  · rw [pyJoin_sep (validName_not_startsWith hn) h0 ha]
    exact endsWith_append_slash_name hn a

theorem pyJoin_assoc {a n r : String} (ha : pyEndsWith a "/" = false)
    (hn : validName n = true) (hr : pyStartsWith r "/" = false) :
    pyJoin (pyJoin a n) r = pyJoin a (n ++ "/" ++ r) := by
  have hnr : pyStartsWith (n ++ "/" ++ r) "/" = false := by
    rw [String.append_assoc]
    exact startsWith_name_append hn _
  by_cases h0 : a = ""
  · rw [h0, pyJoin_empty (validName_not_startsWith hn), pyJoin_empty hnr,
      pyJoin_sep hr (validName_ne_empty hn) (validName_not_endsWith hn)]
  · rw [pyJoin_sep (validName_not_startsWith hn) h0 ha,
      pyJoin_sep hr (append_slash_ne_empty a n)
        (endsWith_append_slash_name hn a),
      pyJoin_sep hnr h0 ha]
    apply String.ext
    simp [String.data_append, List.append_assoc]

theorem pyBasename_validName {p : String} (h0 : p ≠ "")
    (h1 : pyEndsWith p "/" = false) : validName (pyBasename p) = true := by
  have hdata : p.data ≠ [] := fun h => h0 (String.ext (by simpa using h))
  rcases hrev : p.data.reverse with _ | ⟨c, t⟩
  · exact absurd (by simpa using congrArg List.reverse hrev) hdata
  have hc : c ≠ '/' := by
    intro hc
    subst hc
    have h2 : p.data = t.reverse ++ ['/'] := by
      simpa using congrArg List.reverse hrev
    have h3 : ¬ (pyEndsWith p "/" = true) := by simp [h1]
    rw [pyEndsWith_slash_iff] at h3
    exact h3 ⟨t.reverse, h2⟩
  have hall : ∀ x ∈ (p.data.reverse.takeWhile (fun d => d ≠ '/')).reverse,
      x ≠ '/' := by
    intro x hx
    have := List.mem_takeWhile_imp ((List.mem_reverse).1 hx)
    simpa using this
  have hne2 : (p.data.reverse.takeWhile (fun d => d ≠ '/')).reverse ≠ [] := by
    rw [hrev, List.takeWhile_cons, if_pos (by simpa using hc)]
    simp
  unfold validName pyBasename
  rw [Bool.and_eq_true]
  refine ⟨?_, ?_⟩
  · rw [Bool.not_eq_true', decide_eq_false_iff_not]
    intro h
    exact hne2 (by simpa using congrArg String.data h)
  · rw [List.all_eq_true]
    intro x hx
    simpa using hall x hx

/-! ## The tar container built by `create_tar_gz_archive` -/

theorem fileEntriesOf_append (xs ys : List TEntry) :
    fileEntriesOf (xs ++ ys) = fileEntriesOf xs ++ fileEntriesOf ys := by
  induction xs with
  | nil => rfl
  | cons e rest ih => cases e <;> simp [fileEntriesOf, ih]

theorem relFiles_not_startsWith {l : DirList} (hl : validNames l = true) :
    ∀ rc ∈ relFiles l, pyStartsWith rc.1 "/" = false := by
  induction l with
  | nil => intro rc h; simp [relFiles] at h
  | file n c r ih =>
      rw [validNames, Bool.and_eq_true] at hl
      intro rc h
      rcases (List.mem_cons).1 h with h1 | h1
      · subst h1
        have : pyStartsWith (n ++ "") "/" = false :=
          startsWith_name_append hl.1 ""
        simpa using this
      · exact ih hl.2 rc h1
  | dir n ch r ihch ihr =>
      rw [validNames, Bool.and_eq_true, Bool.and_eq_true] at hl
      intro rc h
      rw [relFiles, List.mem_append] at h
      rcases h with h1 | h1
      · obtain ⟨rc0, _, hrc⟩ := List.mem_map.1 h1
        subst hrc
        rw [String.append_assoc]
        exact startsWith_name_append hl.1.1 _
      · exact ihr hl.2 rc h1

theorem fileEntriesOf_tarAddList {l : DirList} (hl : validNames l = true) :
    ∀ arc, pyEndsWith arc "/" = false →
      fileEntriesOf (tarAddList arc l) =
        (relFiles l).map (fun rc => (pyJoin arc rc.1, rc.2)) := by
  induction l with
  | nil => intro arc _; rfl
  | file n c r ih =>
      intro arc ha
      rw [validNames, Bool.and_eq_true] at hl
      rw [tarAddList, relFiles]
      simp only [fileEntriesOf, List.map_cons]
      rw [ih hl.2 arc ha]
  | dir n ch r ihch ihr =>
      intro arc ha
      rw [validNames, Bool.and_eq_true, Bool.and_eq_true] at hl
      obtain ⟨⟨hn, hch⟩, hr⟩ := hl
      rw [tarAddList, relFiles]
      rw [List.cons_append, fileEntriesOf, fileEntriesOf_append]
      rw [ihch hch (pyJoin arc n) (pyJoin_name_not_endsWith ha hn), ihr hr arc ha]
      rw [List.map_append, List.map_map]
      congr 1
      apply List.map_congr_left
      intro rc hrc
      simp only [Function.comp_apply]
      rw [← pyJoin_assoc ha hn (relFiles_not_startsWith hch rc hrc)]

/-! ## Facts about name distinctness in a listing -/

theorem nodupTree_level {l : DirList} (h : nodupTree l = true) :
    (fileNamesOf l ++ dirNamesOf l).Nodup := by
  unfold nodupTree at h
  rw [Bool.and_eq_true, decide_eq_true_eq] at h
  exact h.1

theorem nodupTree_tail_file {n : String} {c : List Nat} {r : DirList}
    (h : nodupTree (DirList.file n c r) = true) : nodupTree r = true := by
  unfold nodupTree at h ⊢
  rw [Bool.and_eq_true, decide_eq_true_eq] at h
  rw [Bool.and_eq_true, decide_eq_true_eq]
  obtain ⟨h1, h2⟩ := h
  rw [fileNamesOf, List.cons_append] at h1
  exact ⟨h1.of_cons, h2⟩

theorem nodupTree_dir_parts {n : String} {ch r : DirList}
    (h : nodupTree (DirList.dir n ch r) = true) :
    nodupTree ch = true ∧ nodupTree r = true ∧ n ∉ dirNamesOf r := by
  unfold nodupTree at h
  rw [Bool.and_eq_true, decide_eq_true_eq] at h
  obtain ⟨h1, h2⟩ := h
  rw [show nodupBelow (DirList.dir n ch r) =
      ((decide (fileNamesOf ch ++ dirNamesOf ch).Nodup && nodupBelow ch) &&
        nodupBelow r) from rfl, Bool.and_eq_true, Bool.and_eq_true] at h2
  rw [fileNamesOf, dirNamesOf] at h1
  have hlevr : (fileNamesOf r ++ dirNamesOf r).Nodup :=
    ((List.sublist_cons_self n (dirNamesOf r)).append_left
      (fileNamesOf r)).nodup h1
  have hnmem : n ∉ dirNamesOf r := by
    have := (List.nodup_append.1 h1).2.1
    exact (List.nodup_cons.1 this).1
  refine ⟨?_, ?_, hnmem⟩
  · unfold nodupTree
    rw [Bool.and_eq_true]
    exact ⟨h2.1.1, h2.1.2⟩
  · unfold nodupTree
    rw [Bool.and_eq_true, decide_eq_true_eq]
    exact ⟨hlevr, h2.2⟩

/-! ## Facts about the path sets of a tree -/

theorem prefix_same_length_eq {q a b : FPath} (ha : a <+: q) (hb : b <+: q)
    (hlen : a.length = b.length) : a = b := by
  rw [List.prefix_iff_eq_take] at ha hb
  rw [ha, hb, hlen]

theorem append_singleton_inj {p : FPath} {n m : String}
    (h : p ++ [n] = p ++ [m]) : n = m := by
  have := List.append_cancel_left h
  simpa using this

theorem mem_filesUnder (l : DirList) : ∀ p q, q ∈ filesUnder p l →
    p <+: q ∧ p.length < q.length := by
  induction l with
  | nil => intro p q h; simp [filesUnder] at h
  | file n c r ih =>
      intro p q h
      rw [filesUnder, Finset.mem_insert] at h
      rcases h with h | h
      · subst h
        exact ⟨List.prefix_append _ _, by simp⟩
      · exact ih p q h
  | dir n ch r ihch ihr =>
      intro p q h
      rw [filesUnder, Finset.mem_union] at h
      rcases h with h | h
      · obtain ⟨h1, h2⟩ := ihch (p ++ [n]) q h
        refine ⟨(List.prefix_append _ _).trans h1, ?_⟩
        have : p.length < (p ++ [n]).length := by simp
        omega
      · exact ihr p q h

theorem mem_dirsUnder (l : DirList) : ∀ p q, q ∈ dirsUnder p l →
    p <+: q ∧ p.length < q.length := by
  induction l with
  | nil => intro p q h; simp [dirsUnder] at h
  | file n c r ih => intro p q h; exact ih p q h
  | dir n ch r ihch ihr =>
      intro p q h
      rw [dirsUnder] at h
      rcases Finset.mem_union.1 h with h | h
      · rcases Finset.mem_insert.1 h with h | h
        · subst h
          exact ⟨List.prefix_append _ _, by simp⟩
        · obtain ⟨h1, h2⟩ := ihch (p ++ [n]) q h
          refine ⟨(List.prefix_append _ _).trans h1, ?_⟩
          have : p.length < (p ++ [n]).length := by simp
          omega
      · exact ihr p q h

theorem mem_subFilesUnder (l : DirList) : ∀ p q, q ∈ subFilesUnder p l →
    ∃ m ∈ dirNamesOf l, (p ++ [m]) <+: q := by
  induction l with
  | nil => intro p q h; simp [subFilesUnder] at h
  | file n c r ih => intro p q h; exact ih p q h
  | dir n ch r ihch ihr =>
      intro p q h
      rw [subFilesUnder, Finset.mem_union] at h
      rcases h with h | h
      · exact ⟨n, List.mem_cons_self _ _, (mem_filesUnder ch (p ++ [n]) q h).1⟩
      · obtain ⟨m, hm, hpre⟩ := ihr p q h
        exact ⟨m, List.mem_cons_of_mem _ hm, hpre⟩

theorem mem_subDirsUnder (l : DirList) : ∀ p q, q ∈ subDirsUnder p l →
    ∃ m ∈ dirNamesOf l, (p ++ [m]) <+: q := by
  induction l with
  | nil => intro p q h; simp [subDirsUnder] at h
  | file n c r ih => intro p q h; exact ih p q h
  | dir n ch r ihch ihr =>
      intro p q h
      rw [subDirsUnder, Finset.mem_union] at h
      rcases h with h | h
      · exact ⟨n, List.mem_cons_self _ _, (mem_dirsUnder ch (p ++ [n]) q h).1⟩
      · obtain ⟨m, hm, hpre⟩ := ihr p q h
        exact ⟨m, List.mem_cons_of_mem _ hm, hpre⟩

theorem filesUnder_split (l : DirList) : ∀ p,
    filesUnder p l = levelFilePaths p l ∪ subFilesUnder p l := by
  induction l with
  | nil =>
      intro p
      simp [filesUnder, levelFilePaths, subFilesUnder, fileNamesOf]
  | file n c r ih =>
      intro p
      simp only [filesUnder, levelFilePaths, subFilesUnder, fileNamesOf,
        List.map_cons, List.toFinset_cons]
      rw [ih p, Finset.insert_union]
      rfl
  | dir n ch r ihch ihr =>
      intro p
      simp only [filesUnder, levelFilePaths, subFilesUnder, fileNamesOf]
      rw [ihr p, Finset.union_left_comm]
      rfl

theorem dirsUnder_split (l : DirList) : ∀ p,
    dirsUnder p l = topDirPaths p l ∪ subDirsUnder p l := by
  induction l with
  | nil =>
      intro p
      simp [dirsUnder, topDirPaths, subDirsUnder, dirNamesOf]
  | file n c r ih =>
      intro p
      simp only [dirsUnder, topDirPaths, subDirsUnder, dirNamesOf]
      exact ih p
  | dir n ch r ihch ihr =>
      intro p
      simp only [dirsUnder, topDirPaths, subDirsUnder, dirNamesOf,
        List.map_cons, List.toFinset_cons]
      rw [ihr p, Finset.insert_union, Finset.insert_union,
        Finset.union_left_comm]
      rfl

/-! ## Executing removal sequences -/

theorem execOps_append_ok {l1 : List Op} {fs f : PathFS} (l2 : List Op)
    (h : execOps l1 fs = .ok f) : execOps (l1 ++ l2) fs = execOps l2 f := by
  induction l1 generalizing fs with
  | nil =>
      have := Except.ok.inj h
      subst this
      rfl
  | cons op rest ih =>
      simp only [List.cons_append, execOps] at h ⊢
      cases hop : execOp fs op with
      | ok fs1 =>
          rw [hop] at h
          exact ih h
      | error e =>
          rw [hop] at h
          exact absurd h (by simp)

theorem exec_rm_batch (p : FPath) (names : List String) (F Ds : Finset FPath)
    (hnd : names.Nodup) (hdisj : ∀ n ∈ names, (p ++ [n]) ∉ F) :
    execOps (names.map (fun n => Op.rm (p ++ [n])))
      ⟨((names.map (fun n => p ++ [n])).toFinset) ∪ F, Ds⟩ = .ok ⟨F, Ds⟩ := by
  induction names with
  | nil => simp [execOps]
  | cons n0 rest ih =>
      rw [List.nodup_cons] at hnd
      simp only [List.map_cons, List.toFinset_cons, execOps, execOp]
      have hnotin : (p ++ [n0]) ∉
          ((rest.map (fun n => p ++ [n])).toFinset ∪ F) := by
        rw [Finset.mem_union]
        rintro (h1 | h1)
        · obtain ⟨m, hm, hme⟩ := List.mem_map.1 (List.mem_toFinset.1 h1)
          have : m = n0 := append_singleton_inj hme
          exact hnd.1 (this ▸ hm)
        · exact hdisj n0 (List.mem_cons_self _ _) h1
      rw [if_pos (Finset.mem_union_left _ (Finset.mem_insert_self _ _))]
      rw [Finset.insert_union, Finset.erase_insert hnotin]
      exact ih hnd.2 (fun n hn => hdisj n (List.mem_cons_of_mem _ hn))

theorem exec_rmdir_batch (p : FPath) (names : List String) (F D : Finset FPath)
    (hnd : names.Nodup)
    (hF : ∀ q ∈ F, ∀ n ∈ names, ¬ (p ++ [n]) <+: q)
    (hD : ∀ q ∈ D, ∀ n ∈ names, ¬ (p ++ [n]) <+: q) :
    execOps (names.map (fun n => Op.rmdir (p ++ [n])))
      ⟨F, ((names.map (fun n => p ++ [n])).toFinset) ∪ D⟩ = .ok ⟨F, D⟩ := by
  induction names with
  | nil => simp [execOps]
  | cons n0 rest ih =>
      rw [List.nodup_cons] at hnd
      simp only [List.map_cons, List.toFinset_cons, execOps, execOp]
      have hok : RmdirOk
          ⟨F, insert (p ++ [n0]) ((rest.map (fun n => p ++ [n])).toFinset) ∪ D⟩
          (p ++ [n0]) := by
        refine ⟨Finset.mem_union_left _ (Finset.mem_insert_self _ _), ?_, ?_⟩
        · intro q hq
          exact hF q hq n0 (List.mem_cons_self _ _)
        · intro q hq hpre
          rcases Finset.mem_union.1 hq with h1 | h1
          · rcases Finset.mem_insert.1 h1 with h2 | h2
            · exact h2
            · obtain ⟨m, hm, hme⟩ := List.mem_map.1 (List.mem_toFinset.1 h2)
              subst hme
              exact
                (prefix_same_length_eq hpre (List.prefix_refl _) (by simp)).symm
          · exact absurd hpre (hD q h1 n0 (List.mem_cons_self _ _))
      rw [if_pos hok]
      have hnotin : (p ++ [n0]) ∉
          ((rest.map (fun n => p ++ [n])).toFinset ∪ D) := by
        rw [Finset.mem_union]
        rintro (h1 | h1)
        · obtain ⟨m, hm, hme⟩ := List.mem_map.1 (List.mem_toFinset.1 h1)
          have : m = n0 := append_singleton_inj hme
          exact hnd.1 (this ▸ hm)
        · exact hD _ h1 n0 (List.mem_cons_self _ _) (List.prefix_refl _)
      rw [Finset.insert_union, Finset.erase_insert hnotin]
      exact ih hnd.2
        (fun q hq n hn => hF q hq n (List.mem_cons_of_mem _ hn))
        (fun q hq n hn => hD q hq n (List.mem_cons_of_mem _ hn))

/-! ## Executing the bottom-up directory walk

`os.walk(path, topdown=False)` removes, for every directory, its files
before its subdirectories, and visits children before parents (deepest
first); this is exactly what makes every `os.rmdir` see an already-empty
directory. -/

theorem walkOps_exec_of_cw (l : DirList)
    (hcw : ∀ p (F D : Finset FPath), nodupTree l = true →
      (∀ q ∈ F, ∀ n ∈ dirNamesOf l, ¬ (p ++ [n]) <+: q) →
      (∀ q ∈ D, ∀ n ∈ dirNamesOf l, (p ++ [n]) <+: q → q = p ++ [n]) →
      execOps (childWalks p l)
        ⟨subFilesUnder p l ∪ F, subDirsUnder p l ∪ D⟩ = .ok ⟨F, D⟩) :
    ∀ p (F D : Finset FPath), nodupTree l = true →
      (∀ q ∈ F, ¬ p <+: q) → (∀ q ∈ D, p <+: q → q = p) →
      execOps (walkOps p l) ⟨filesUnder p l ∪ F, dirsUnder p l ∪ D⟩ =
        .ok ⟨F, D⟩ := by
  intro p F D hwf hF hD
  obtain ⟨hfN, hdN, hdisj⟩ := List.nodup_append.1 (nodupTree_level hwf)
  have hF1 : ∀ q ∈ levelFilePaths p l ∪ F, ∀ n ∈ dirNamesOf l,
      ¬ (p ++ [n]) <+: q := by
    intro q hq n hn hpre
    rcases Finset.mem_union.1 hq with h1 | h1
    · obtain ⟨m, hm, hme⟩ := List.mem_map.1 (List.mem_toFinset.1 h1)
      subst hme
      have heq := prefix_same_length_eq hpre (List.prefix_refl _) (by simp)
      have hnm : n = m := append_singleton_inj heq
      exact hdisj (hnm ▸ hm) hn
    · exact hF q h1 ((List.prefix_append p [n]).trans hpre)
  have hD1 : ∀ q ∈ topDirPaths p l ∪ D, ∀ n ∈ dirNamesOf l,
      (p ++ [n]) <+: q → q = p ++ [n] := by
    intro q hq n hn hpre
    rcases Finset.mem_union.1 hq with h1 | h1
    · obtain ⟨m, hm, hme⟩ := List.mem_map.1 (List.mem_toFinset.1 h1)
      subst hme
      exact (prefix_same_length_eq hpre (List.prefix_refl _) (by simp)).symm
    · have hq2 := hD q h1 ((List.prefix_append p [n]).trans hpre)
      subst hq2
      have hlen := hpre.length_le
      simp at hlen
  have e1 := hcw p (levelFilePaths p l ∪ F) (topDirPaths p l ∪ D) hwf hF1 hD1
  have e2 : execOps ((fileNamesOf l).map (fun n => Op.rm (p ++ [n])))
      ⟨levelFilePaths p l ∪ F, topDirPaths p l ∪ D⟩ =
        .ok ⟨F, topDirPaths p l ∪ D⟩ := by
    refine exec_rm_batch p (fileNamesOf l) F _ hfN ?_
    intro n hn hmem
    exact hF _ hmem (List.prefix_append p [n])
  have e3 : execOps ((dirNamesOf l).map (fun n => Op.rmdir (p ++ [n])))
      ⟨F, topDirPaths p l ∪ D⟩ = .ok ⟨F, D⟩ := by
    refine exec_rmdir_batch p (dirNamesOf l) F D hdN ?_ ?_
    · intro q hq n hn hpre
      exact hF q hq ((List.prefix_append p [n]).trans hpre)
    · intro q hq n hn hpre
      have hq2 := hD q hq ((List.prefix_append p [n]).trans hpre)
      subst hq2
      have hlen := hpre.length_le
      simp at hlen
  have hfs : (⟨filesUnder p l ∪ F, dirsUnder p l ∪ D⟩ : PathFS) =
      ⟨subFilesUnder p l ∪ (levelFilePaths p l ∪ F),
        subDirsUnder p l ∪ (topDirPaths p l ∪ D)⟩ := by
    rw [filesUnder_split l p, dirsUnder_split l p]
    congr 1
    · rw [Finset.union_assoc, Finset.union_left_comm]
    · rw [Finset.union_assoc, Finset.union_left_comm]
  unfold walkOps
  rw [List.append_assoc, hfs, execOps_append_ok _ e1, execOps_append_ok _ e2]
  exact e3

theorem childWalks_exec (l : DirList) :
    ∀ p (F D : Finset FPath), nodupTree l = true →
      (∀ q ∈ F, ∀ n ∈ dirNamesOf l, ¬ (p ++ [n]) <+: q) →
      (∀ q ∈ D, ∀ n ∈ dirNamesOf l, (p ++ [n]) <+: q → q = p ++ [n]) →
      execOps (childWalks p l)
        ⟨subFilesUnder p l ∪ F, subDirsUnder p l ∪ D⟩ = .ok ⟨F, D⟩ := by
  induction l with
  | nil =>
      intro p F D _ _ _
      simp [childWalks, subFilesUnder, subDirsUnder, execOps]
  | file n c r ih =>
      intro p F D hwf hF hD
      exact ih p F D (nodupTree_tail_file hwf) hF hD
  | dir n ch r ihch ihr =>
      intro p F D hwf hF hD
      obtain ⟨hch, hr, hnmem⟩ := nodupTree_dir_parts hwf
      have hF1 : ∀ q ∈ subFilesUnder p r ∪ F, ¬ (p ++ [n]) <+: q := by
        intro q hq hpre
        rcases Finset.mem_union.1 hq with h1 | h1
        · obtain ⟨m, hm, hpre2⟩ := mem_subFilesUnder r p q h1
          have heq := prefix_same_length_eq hpre hpre2 (by simp)
          exact hnmem ((append_singleton_inj heq) ▸ hm)
        · exact hF q h1 n (List.mem_cons_self _ _) hpre
      have hD1 : ∀ q ∈ subDirsUnder p r ∪ D,
          (p ++ [n]) <+: q → q = p ++ [n] := by
        intro q hq hpre
        rcases Finset.mem_union.1 hq with h1 | h1
        · obtain ⟨m, hm, hpre2⟩ := mem_subDirsUnder r p q h1
          have heq := prefix_same_length_eq hpre hpre2 (by simp)
          exact absurd ((append_singleton_inj heq) ▸ hm) hnmem
        · exact hD q h1 n (List.mem_cons_self _ _) hpre
      have e1 := walkOps_exec_of_cw ch ihch (p ++ [n])
        (subFilesUnder p r ∪ F) (subDirsUnder p r ∪ D) hch hF1 hD1
      have hfs : (⟨subFilesUnder p (DirList.dir n ch r) ∪ F,
          subDirsUnder p (DirList.dir n ch r) ∪ D⟩ : PathFS) =
          ⟨filesUnder (p ++ [n]) ch ∪ (subFilesUnder p r ∪ F),
            dirsUnder (p ++ [n]) ch ∪ (subDirsUnder p r ∪ D)⟩ := by
        simp only [subFilesUnder, subDirsUnder]
        congr 1 <;> rw [Finset.union_assoc]
      rw [show childWalks p (DirList.dir n ch r) =
        walkOps (p ++ [n]) ch ++ childWalks p r from rfl, hfs,
        execOps_append_ok _ e1]
      exact ihr p F D hr
        (fun q hq m hm => hF q hq m (List.mem_cons_of_mem _ hm))
        (fun q hq m hm => hD q hq m (List.mem_cons_of_mem _ hm))

theorem walkOps_exec (l : DirList) :
    ∀ p (F D : Finset FPath), nodupTree l = true →
      (∀ q ∈ F, ¬ p <+: q) → (∀ q ∈ D, p <+: q → q = p) →
      execOps (walkOps p l) ⟨filesUnder p l ∪ F, dirsUnder p l ∪ D⟩ =
        .ok ⟨F, D⟩ :=
  walkOps_exec_of_cw l (childWalks_exec l)

/-! ## The cleanup pass -/

theorem cleanupStep_file (fs : PathFS) (p : FPath) (hd : p ∉ fs.dirs) :
    cleanupStep fs p .nil = .ok ⟨fs.files.erase p, fs.dirs⟩ := by
  unfold cleanupStep pathCleanupOps
  rw [if_neg hd]
  by_cases hf : p ∈ fs.files
  · rw [if_pos hf]
    simp only [execOps, execOp]
    rw [if_pos hf]
  · rw [if_neg hf]
    simp [execOps, Finset.erase_eq_of_not_mem hf]

theorem cleanup_result (fs : PathFS) (l : DirList) (F D : Finset FPath)
    (h : CleanupPre fs l F D) :
    cleanup_local_resources fs l =
      .ok ⟨(F.erase archiveP).erase logP, D.erase tmpRootP⟩ := by
  obtain ⟨hf, hd, hwf, hF, hD, hroot, harch, hlog⟩ := h
  obtain ⟨filesv, dirsv⟩ := fs
  simp only at hf hd harch hlog
  subst hf
  subst hd
  have hstep1 : cleanupStep ⟨filesUnder tmpRootP l ∪ F, dirsUnder tmpRootP l ∪ D⟩
      tmpRootP l = .ok ⟨F, D.erase tmpRootP⟩ := by
    unfold cleanupStep pathCleanupOps
    rcases hroot with hrin | ⟨hnil, hrout⟩
    · rw [if_pos (Finset.mem_union_right _ hrin)]
      have e1 := walkOps_exec l tmpRootP F D hwf hF hD
      rw [execOps_append_ok _ e1]
      simp only [execOps, execOp]
      rw [if_pos (show RmdirOk ⟨F, D⟩ tmpRootP from ⟨hrin, hF, hD⟩)]
    · subst hnil
      simp only [filesUnder, dirsUnder, Finset.empty_union]
      rw [if_neg (by simpa using hrout),
        if_neg (fun hm => hF _ (by simpa using hm) (List.prefix_refl _))]
      simp [execOps, Finset.erase_eq_of_not_mem hrout]
  have harch1 : archiveP ∉ D.erase tmpRootP := fun hm =>
    harch (Finset.mem_union_right _ (Finset.mem_of_mem_erase hm))
  have hlog1 : logP ∉ D.erase tmpRootP := fun hm =>
    hlog (Finset.mem_union_right _ (Finset.mem_of_mem_erase hm))
  have hstep2 := cleanupStep_file ⟨F, D.erase tmpRootP⟩ archiveP harch1
  have hstep3 := cleanupStep_file ⟨F.erase archiveP, D.erase tmpRootP⟩ logP hlog1
  unfold cleanup_local_resources
  rw [hstep1]
  simp only at hstep2 ⊢
  rw [hstep2]
  simp only at hstep3 ⊢
  exact hstep3

theorem cleanup_clean_noop (fs : PathFS) (l : DirList)
    (h1 : tmpRootP ∉ fs.dirs) (h2 : tmpRootP ∉ fs.files)
    (h3 : archiveP ∉ fs.dirs) (h4 : archiveP ∉ fs.files)
    (h5 : logP ∉ fs.dirs) (h6 : logP ∉ fs.files) :
    cleanup_local_resources fs l = .ok fs := by
  have hstep1 : cleanupStep fs tmpRootP l = .ok fs := by
    unfold cleanupStep pathCleanupOps
    rw [if_neg h1, if_neg h2]
    rfl
  have hstep2 : cleanupStep fs archiveP .nil = .ok fs := by
    unfold cleanupStep pathCleanupOps
    rw [if_neg h3, if_neg h4]
    rfl
  have hstep3 : cleanupStep fs logP .nil = .ok fs := by
    unfold cleanupStep pathCleanupOps
    rw [if_neg h5, if_neg h6]
    rfl
  unfold cleanup_local_resources
  rw [hstep1]
  simp only
  rw [hstep2]
  simp only
  exact hstep3

/-! ## Claim theorems -/

/-- C3: `calculate_size_savings(0, compressed)` fails with the
deterministic, testable `ZeroDivisionError` raised by the true division —
an explicit error condition, not undefined behaviour and not a silently
accepted `(0, NaN)`-style result; in particular at `(0, 0)`. -/
theorem calculate_size_savings_zero_is_error :
    calculate_size_savings 0 0 = .error .zeroDivision ∧
    ∀ c : Int, calculate_size_savings 0 c = .error .zeroDivision := by
  have h2 : ∀ c : Int, calculate_size_savings 0 c = .error .zeroDivision := by
    intro c
    have hz : ((0 : Int) : Rat) = 0 := by norm_num
    unfold calculate_size_savings pyDiv
    simp [hz]
  exact ⟨h2 0, h2⟩

/-- C7: for non-negative inputs with positive original size,
`calculate_size_savings` returns the absolute savings
`original - compressed` together with the exact percentage
`((original - compressed) / original) * 100` of the original size saved. -/
theorem calculate_size_savings_spec (o c : Int) (h0 : 0 < o) (hc : 0 ≤ c) :
    calculate_size_savings o c =
      .ok (o - c, (((o : Rat) - (c : Rat)) / (o : Rat)) * 100) := by
  have hne : ¬ ((o : Rat) = 0) := Int.cast_ne_zero.2 (by omega)
  unfold calculate_size_savings pyDiv
  simp [hne, Int.cast_sub]

/-- Witness for C7: `calculate_size_savings(1000, 250) = (750, 75.0)`. -/
theorem calculate_size_savings_spec_witness :
    ((0 : Int) < 1000 ∧ (0 : Int) ≤ 250) ∧
    calculate_size_savings 1000 250 = .ok (750, 75) := by
  refine ⟨⟨by norm_num, by norm_num⟩, ?_⟩
  have h := calculate_size_savings_spec 1000 250 (by norm_num) (by norm_num)
  rw [h]
  norm_num

/-- C5 (counterexample): a failure while streaming the tar file into the
gzip file propagates the error but leaves the intermediate uncompressed
tar file on disk: `os.remove(tar_path)` (main.py:89) is only reached on the
success path, so the claim that the intermediate file is always removed
before returning or propagating is false. -/
theorem intermediate_tar_left_on_failure :
    (create_tar_gz_archive "/tmp/s3_files" oneFileListing 0
        "/tmp/weekly-archive" (some .duringCompress)).tarPresent = true ∧
    (create_tar_gz_archive "/tmp/s3_files" oneFileListing 0
        "/tmp/weekly-archive" (some .duringCompress)).result =
      .error .osError := by
  exact ⟨rfl, rfl⟩

/-- C5 (amended): the intermediate uncompressed file is removed exactly on
the success path; when the build fails partway (entry addition or
compression), the error propagates with the intermediate tar file still
present, since the function has no `try`/`finally`. -/
theorem create_tar_gz_intermediate_cleanup (source_dir : String)
    (listing : DirList) (now : Nat) (out : String) :
    ((create_tar_gz_archive source_dir listing now out none).tarPresent =
        false ∧
      (create_tar_gz_archive source_dir listing now out none).result =
        .ok (out ++ ".tar.gz")) ∧
    ∀ f, (create_tar_gz_archive source_dir listing now out
        (some f)).tarPresent = true ∧
      (create_tar_gz_archive source_dir listing now out (some f)).result =
        .error .osError := by
  refine ⟨⟨rfl, rfl⟩, ?_⟩
  intro f
  cases f <;> exact ⟨rfl, rfl⟩

/-- C2 (counterexample): two Archive Builder runs on an identical source
tree, one clock second apart, produce different output streams — the gzip
header MTIME field (written from the wall clock because `gzip.open` uses
`mtime=None`) differs, so the outputs are not byte-identical. -/
theorem create_tar_gz_not_reproducible :
    create_tar_gz_archive "/tmp/s3_files" oneFileListing 0
        "/tmp/weekly-archive" none ≠
      create_tar_gz_archive "/tmp/s3_files" oneFileListing 1
        "/tmp/weekly-archive" none := by
  intro h
  have h2 := congrArg BuildResult.gzComplete h
  simp [create_tar_gz_archive] at h2

/-- C2 (amended): the compressed payload is a function of the source tree
and its traversal order alone; the full output streams are byte-identical
whenever the two builds carry the same header timestamp (same clock
second), and only the MTIME header field can differ otherwise. -/
theorem create_tar_gz_deterministic (source_dir : String) (listing : DirList)
    (out : String) (m1 m2 : Nat) :
    ((create_tar_gz_archive source_dir listing m1 out none).gzComplete.map
        GzFile.payload =
      (create_tar_gz_archive source_dir listing m2 out none).gzComplete.map
        GzFile.payload) ∧
    (m1 = m2 →
      create_tar_gz_archive source_dir listing m1 out none =
        create_tar_gz_archive source_dir listing m2 out none) := by
  exact ⟨rfl, fun h => by rw [h]⟩

/-- Witness for C2 (amended): two builds with the same clock reading on the
sample tree coincide exactly. -/
theorem create_tar_gz_deterministic_witness :
    ((create_tar_gz_archive "/tmp/s3_files" sampleListing 5
        "/tmp/weekly-archive" none).gzComplete.map GzFile.payload =
      (create_tar_gz_archive "/tmp/s3_files" sampleListing 5
        "/tmp/weekly-archive" none).gzComplete.map GzFile.payload) ∧
    create_tar_gz_archive "/tmp/s3_files" sampleListing 5
        "/tmp/weekly-archive" none =
      create_tar_gz_archive "/tmp/s3_files" sampleListing 5
        "/tmp/weekly-archive" none :=
  ⟨(create_tar_gz_deterministic "/tmp/s3_files" sampleListing
      "/tmp/weekly-archive" 5 5).1,
    (create_tar_gz_deterministic "/tmp/s3_files" sampleListing
      "/tmp/weekly-archive" 5 5).2 rfl⟩

/-- C1 (counterexample): for the source directory argument
`'/tmp/s3_files/'` — exactly what `main` passes, with a trailing
separator — `os.path.basename` is empty, so the container's file entries
carry no root-name prefix: the single input file sits at the bare path
`"data.txt"`, which contains no separator and hence is not of the form
`<root-basename>/<relative-path>` for any base name, in particular not
prefixed by the directory's own name `s3_files`.  The claim quantified over
every source directory is therefore false. -/
theorem tar_entries_unprefixed_for_trailing_slash :
    pyBasename "/tmp/s3_files/" = "" ∧
    (create_tar_gz_archive "/tmp/s3_files/" oneFileListing 0
        "/tmp/weekly-archive" none).gzComplete =
      some ⟨0, [.dir "", .file "data.txt" [104]]⟩ ∧
    ¬ ∃ b rel, "data.txt" = b ++ "/" ++ rel := by
  refine ⟨by decide, by decide, ?_⟩
  rintro ⟨b, rel, hb⟩
  have hm := slash_mem_append b rel
  rw [← hb] at hm
  exact absurd hm (by decide)

/-- C1 (amended): for every source directory path without a trailing
separator (and well-formed listing), decompressing and unpacking the
Archive Builder's output reproduces exactly the input files' bytes at paths
`<root-basename>/<relative-path>`, with the base name
`os.path.basename(source_dir)` as prefix; the container also records
directory entries.  As frozen, the claim fails only when the source path
ends with a separator (as in the pipeline's own call), where the base name
is empty and the entries are unprefixed. -/
theorem create_tar_gz_roundtrip (source_dir : String) (listing : DirList)
    (now : Nat) (out : String) (h1 : validNames listing = true)
    (h2 : source_dir ≠ "") (h3 : pyEndsWith source_dir "/" = false) :
    ∃ g, (create_tar_gz_archive source_dir listing now out none).gzComplete =
        some g ∧
      (create_tar_gz_archive source_dir listing now out none).result =
        .ok (out ++ ".tar.gz") ∧
      fileEntriesOf (gunzipUntar g) =
        (relFiles listing).map
          (fun rc => (pyBasename source_dir ++ "/" ++ rc.1, rc.2)) := by
  refine ⟨⟨now, tarAdd source_dir listing⟩, rfl, rfl, ?_⟩
  have hb := pyBasename_validName h2 h3
  unfold gunzipUntar tarAdd
  show fileEntriesOf (tarAddList (pyBasename source_dir) listing) = _
  rw [fileEntriesOf_tarAddList h1 _ (validName_not_endsWith hb)]
  apply List.map_congr_left
  intro rc hrc
  rw [pyJoin_sep (relFiles_not_startsWith h1 rc hrc) (validName_ne_empty hb)
    (validName_not_endsWith hb)]

/-- Witness for C1 (amended): the sample tree archived from
`/tmp/s3_files` (no trailing separator) unpacks to
`s3_files/docs/a.txt` and `s3_files/b.txt` with the original bytes. -/
theorem create_tar_gz_roundtrip_witness :
    (validNames sampleListing = true ∧ "/tmp/s3_files" ≠ "" ∧
      pyEndsWith "/tmp/s3_files" "/" = false) ∧
    ∃ g, (create_tar_gz_archive "/tmp/s3_files" sampleListing 0
        "/tmp/weekly-archive" none).gzComplete = some g ∧
      (create_tar_gz_archive "/tmp/s3_files" sampleListing 0
        "/tmp/weekly-archive" none).result =
        .ok ("/tmp/weekly-archive" ++ ".tar.gz") ∧
      fileEntriesOf (gunzipUntar g) =
        (relFiles sampleListing).map
          (fun rc => (pyBasename "/tmp/s3_files" ++ "/" ++ rc.1, rc.2)) :=
  ⟨⟨by decide, by decide, by decide⟩,
    create_tar_gz_roundtrip "/tmp/s3_files" sampleListing 0
      "/tmp/weekly-archive" (by decide) (by decide) (by decide)⟩

/-- C6: on a successful run the Selective Mirror materializes exactly the
objects whose key ends with no active suffix rule, each at
`os.path.join('/tmp/s3_files/', key)` with its exact content (first
clause), and an object contributes a file iff its key matches no rule
(second clause; the injectivity hypothesis rules out two distinct keys
aliasing one local path). -/
theorem download_files_spec (objs : List RemoteObject)
    (ignore_patterns : Option (List String))
    (hinj : (objs.map (fun o => pyJoin localDirRoot o.key)).Nodup) :
    (∀ p c, ((p, c) ∈ download_files objs ignore_patterns ↔
      ∃ o ∈ objs,
        (¬ ∃ r ∈ ignore_patterns.getD [], pyEndsWith o.key r = true) ∧
        p = pyJoin localDirRoot o.key ∧ c = o.content)) ∧
    (∀ o ∈ objs,
      ((∃ c, (pyJoin localDirRoot o.key, c) ∈
          download_files objs ignore_patterns) ↔
        ¬ ∃ r ∈ ignore_patterns.getD [], pyEndsWith o.key r = true)) := by
  have hmem : ∀ p c, ((p, c) ∈ download_files objs ignore_patterns ↔
      ∃ o ∈ objs,
        (¬ ∃ r ∈ ignore_patterns.getD [], pyEndsWith o.key r = true) ∧
        p = pyJoin localDirRoot o.key ∧ c = o.content) := by
    intro p c
    unfold download_files
    rw [List.mem_filterMap]
    constructor
    · rintro ⟨o, ho, hfo⟩
      by_cases hskip :
          (ignore_patterns.getD []).any (fun pattern => pyEndsWith o.key pattern)
      · rw [if_pos hskip] at hfo
        exact absurd hfo (by simp)
      · rw [if_neg hskip] at hfo
        have hpair := Option.some.inj hfo
        rw [List.any_eq_true] at hskip
        refine ⟨o, ho, ?_, ?_, ?_⟩
        · simpa using hskip
        · exact (congrArg Prod.fst hpair).symm
        · exact (congrArg Prod.snd hpair).symm
    · rintro ⟨o, ho, hkeep, hp, hc⟩
      refine ⟨o, ho, ?_⟩
      rw [if_neg ?hns]
      case hns =>
        rw [List.any_eq_true]
        simpa using hkeep
      rw [hp, hc]
  refine ⟨hmem, ?_⟩
  intro o ho
  constructor
  · rintro ⟨c, hc⟩
    obtain ⟨o2, ho2, hkeep2, hp2, _⟩ := (hmem _ _).1 hc
    have : o2 = o := List.inj_on_of_nodup_map hinj ho2 ho hp2.symm
    exact this ▸ hkeep2
  · intro hkeep
    exact ⟨o.content, (hmem _ _).2 ⟨o, ho, hkeep, rfl, rfl⟩⟩

/-- Witness for C6: a three-object bucket with the pipeline's own rule set
`['.tar.gz', 'archival-logs/']`. -/
theorem download_files_spec_witness :
    ((([⟨"a/b.txt", [1]⟩, ⟨"x.tar.gz", [2]⟩, ⟨"c.txt", [3]⟩] :
        List RemoteObject).map
          (fun o => pyJoin localDirRoot o.key)).Nodup) ∧
    ((∀ p c, ((p, c) ∈ download_files
        [⟨"a/b.txt", [1]⟩, ⟨"x.tar.gz", [2]⟩, ⟨"c.txt", [3]⟩]
        (some [".tar.gz", "archival-logs/"]) ↔
      ∃ o ∈ ([⟨"a/b.txt", [1]⟩, ⟨"x.tar.gz", [2]⟩, ⟨"c.txt", [3]⟩] :
          List RemoteObject),
        (¬ ∃ r ∈ (some [".tar.gz", "archival-logs/"] :
            Option (List String)).getD [], pyEndsWith o.key r = true) ∧
        p = pyJoin localDirRoot o.key ∧ c = o.content)) ∧
    (∀ o ∈ ([⟨"a/b.txt", [1]⟩, ⟨"x.tar.gz", [2]⟩, ⟨"c.txt", [3]⟩] :
        List RemoteObject),
      ((∃ c, (pyJoin localDirRoot o.key, c) ∈ download_files
          [⟨"a/b.txt", [1]⟩, ⟨"x.tar.gz", [2]⟩, ⟨"c.txt", [3]⟩]
          (some [".tar.gz", "archival-logs/"])) ↔
        ¬ ∃ r ∈ (some [".tar.gz", "archival-logs/"] :
            Option (List String)).getD [], pyEndsWith o.key r = true))) :=
  ⟨by decide,
    download_files_spec
      [⟨"a/b.txt", [1]⟩, ⟨"x.tar.gz", [2]⟩, ⟨"c.txt", [3]⟩]
      (some [".tar.gz", "archival-logs/"]) (by decide)⟩

/-- C9: every run makes a single `time.strftime('%Y-%m-%d-%H-%M-%S')` call
(step 0 of the run) and derives both upload keys from that one timestamp:
the archive object key is `weekly-archive-<ts>.tar.gz` and the log object
key is `archival-logs/python-log-<ts>.txt`, for the same string `ts`. -/
theorem run_keys_single_timestamp (clock : Nat → Tm) :
    ∃ ts, ts = strftimeRun (clock 0) ∧
      (mainRunKeys clock).1 = "weekly-archive-" ++ ts ++ ".tar.gz" ∧
      (mainRunKeys clock).2 =
        s3LogDirectory ++ "/" ++ ("python-log-" ++ ts ++ ".txt") := by
  refine ⟨strftimeRun (clock 0), rfl, rfl, ?_⟩
  show logKeyOf s3LogDirectory (strftimeRun (clock 0)) = _
  unfold logKeyOf s3LogDirectory
  apply String.ext
  have hlit : ("/python-log-" : String).data =
      ("/" : String).data ++ ("python-log-" : String).data := by decide
  simp only [String.data_append, hlit, List.append_assoc]
  rfl

/-- C4 (counterexample): on a propagated error the `__main__` guard logs
the error and invokes cleanup, but swallows the exception instead of
re-raising — the process exit status is 0, not the non-zero status the
claim requires. -/
theorem mainGuard_exit_zero_on_error :
    (mainGuard (.error .osError) ⟨∅, ∅⟩ .nil).exitCode = 0 ∧
    (mainGuard (.error .osError) ⟨∅, ∅⟩ .nil).errorLogged = true := by
  constructor <;> decide

/-- C4 (amended): for every propagated error the guard invokes the Run
Finalizer's cleanup (which succeeds and strips every managed path) and
reports the original error to the log, but it does not re-raise: the
process exits with status 0, so failure is communicated only through the
log, never through the exit status (only a cleanup failure inside the
handler would propagate and yield a non-zero exit). -/
theorem mainGuard_error_behavior (e : PyErr) (fs : PathFS) (l : DirList)
    (F D : Finset FPath) (h : CleanupPre fs l F D) :
    cleanup_local_resources fs l =
      .ok ⟨(F.erase archiveP).erase logP, D.erase tmpRootP⟩ ∧
    mainGuard (.error e) fs l =
      ⟨0, true, ⟨(F.erase archiveP).erase logP, D.erase tmpRootP⟩⟩ := by
  have hc := cleanup_result fs l F D h
  refine ⟨hc, ?_⟩
  unfold mainGuard
  rw [hc]

/-- Witness for C4 (amended): a concrete failed run over the sample state
exits 0 with the error logged and the managed paths removed. -/
theorem mainGuard_error_behavior_witness :
    CleanupPre sampleFS sampleListing sampleF sampleD ∧
    (cleanup_local_resources sampleFS sampleListing =
      .ok ⟨(sampleF.erase archiveP).erase logP, sampleD.erase tmpRootP⟩ ∧
    mainGuard (.error .osError) sampleFS sampleListing =
      ⟨0, true,
        ⟨(sampleF.erase archiveP).erase logP, sampleD.erase tmpRootP⟩⟩) :=
  ⟨by decide, mainGuard_error_behavior .osError sampleFS sampleListing
    sampleF sampleD (by decide)⟩

/-- C8: the Run Finalizer never raises — the bottom-up walk removes files
before directories, deepest first, so each `os.rmdir` sees an empty
directory, and missing paths are skipped — a second invocation (on the
resulting already-clean state, under any listing) succeeds and changes
nothing, and no managed path survives: not the working root or anything
beneath it, not the archive file, not the log file. -/
theorem cleanup_idempotent_total (fs : PathFS) (l : DirList)
    (F D : Finset FPath) (h : CleanupPre fs l F D) :
    ∃ fs1, cleanup_local_resources fs l = .ok fs1 ∧
      (∀ l2, cleanup_local_resources fs1 l2 = .ok fs1) ∧
      tmpRootP ∉ fs1.dirs ∧ tmpRootP ∉ fs1.files ∧
      archiveP ∉ fs1.files ∧ logP ∉ fs1.files ∧
      (∀ q ∈ fs1.files, ¬ tmpRootP <+: q) ∧
      (∀ q ∈ fs1.dirs, ¬ tmpRootP <+: q) := by
  have hc := cleanup_result fs l F D h
  obtain ⟨hf, hd, hwf, hF, hD, hroot, harch, hlog⟩ := h
  refine ⟨⟨(F.erase archiveP).erase logP, D.erase tmpRootP⟩, hc, ?_, ?_, ?_,
    ?_, ?_, ?_, ?_⟩
  · intro l2
    refine cleanup_clean_noop _ l2 (Finset.not_mem_erase _ _) ?_ ?_ ?_ ?_
      (Finset.not_mem_erase _ _)
    · intro hm
      exact hF _ (Finset.mem_of_mem_erase (Finset.mem_of_mem_erase hm))
        (List.prefix_refl _)
    · intro hm
      exact harch (by
        rw [hd]
        exact Finset.mem_union_right _ (Finset.mem_of_mem_erase hm))
    · intro hm
      exact (Finset.mem_erase.1 (Finset.mem_of_mem_erase hm)).1 rfl
    · intro hm
      exact hlog (by
        rw [hd]
        exact Finset.mem_union_right _ (Finset.mem_of_mem_erase hm))
  · exact Finset.not_mem_erase _ _
  · intro hm
    exact hF _ (Finset.mem_of_mem_erase (Finset.mem_of_mem_erase hm))
      (List.prefix_refl _)
  · intro hm
    exact (Finset.mem_erase.1 (Finset.mem_of_mem_erase hm)).1 rfl
  · exact Finset.not_mem_erase _ _
  · intro q hq
    exact hF q (Finset.mem_of_mem_erase (Finset.mem_of_mem_erase hq))
  · intro q hq hpre
    obtain ⟨hne, hqD⟩ := Finset.mem_erase.1 hq
    exact hne (hD q hqD hpre)

/-- Witness for C8: the sample state — mirrored tree, archive, log and an
unrelated file — cleans up successfully, idempotently, with no residual
managed paths. -/
theorem cleanup_idempotent_total_witness :
    CleanupPre sampleFS sampleListing sampleF sampleD ∧
    ∃ fs1, cleanup_local_resources sampleFS sampleListing = .ok fs1 ∧
      (∀ l2, cleanup_local_resources fs1 l2 = .ok fs1) ∧
      tmpRootP ∉ fs1.dirs ∧ tmpRootP ∉ fs1.files ∧
      archiveP ∉ fs1.files ∧ logP ∉ fs1.files ∧
      (∀ q ∈ fs1.files, ¬ tmpRootP <+: q) ∧
      (∀ q ∈ fs1.dirs, ¬ tmpRootP <+: q) :=
  ⟨by decide, cleanup_idempotent_total sampleFS sampleListing sampleF sampleD
    (by decide)⟩

/-- C10: the Run Finalizer removes exactly the managed locations: a file
survives cleanup iff it existed before, is not beneath the working root
`/tmp/s3_files/`, and is neither `/tmp/weekly-archive.tar.gz` nor
`/tmp/s3_compression_log.txt`; a directory survives iff it existed before
and is not the working root or beneath it.  Every path outside those
locations is left unchanged. -/
theorem cleanup_frame (fs : PathFS) (l : DirList) (F D : Finset FPath)
    (h : CleanupPre fs l F D) :
    ∃ fs1, cleanup_local_resources fs l = .ok fs1 ∧
      (∀ q, q ∈ fs1.files ↔
        q ∈ fs.files ∧ ¬ tmpRootP <+: q ∧ q ≠ archiveP ∧ q ≠ logP) ∧
      (∀ q, q ∈ fs1.dirs ↔ q ∈ fs.dirs ∧ ¬ tmpRootP <+: q) := by
  have hc := cleanup_result fs l F D h
  obtain ⟨hf, hd, hwf, hF, hD, hroot, harch, hlog⟩ := h
  refine ⟨⟨(F.erase archiveP).erase logP, D.erase tmpRootP⟩, hc, ?_, ?_⟩
  · intro q
    constructor
    · intro hm
      have hmF : q ∈ F :=
        Finset.mem_of_mem_erase (Finset.mem_of_mem_erase hm)
      refine ⟨by rw [hf]; exact Finset.mem_union_right _ hmF, hF q hmF,
        (Finset.mem_erase.1 (Finset.mem_of_mem_erase hm)).1,
        (Finset.mem_erase.1 hm).1⟩
    · rintro ⟨hmem, hnp, hna, hnl⟩
      have hmem2 : q ∈ filesUnder tmpRootP l ∪ F := by
        rw [← hf]; exact hmem
      have hmF : q ∈ F := by
        rcases Finset.mem_union.1 hmem2 with h1 | h1
        · exact absurd (mem_filesUnder l tmpRootP q h1).1 hnp
        · exact h1
      exact Finset.mem_erase.2 ⟨hnl, Finset.mem_erase.2 ⟨hna, hmF⟩⟩
  · intro q
    constructor
    · intro hm
      obtain ⟨hne, hmD⟩ := Finset.mem_erase.1 hm
      exact ⟨by rw [hd]; exact Finset.mem_union_right _ hmD,
        fun hp => hne (hD q hmD hp)⟩
    · rintro ⟨hmem, hnp⟩
      have hmem2 : q ∈ dirsUnder tmpRootP l ∪ D := by
        rw [← hd]; exact hmem
      have hmD : q ∈ D := by
        rcases Finset.mem_union.1 hmem2 with h1 | h1
        · exact absurd (mem_dirsUnder l tmpRootP q h1).1 hnp
        · exact h1
      exact Finset.mem_erase.2
        ⟨fun he => hnp (he ▸ List.prefix_refl _), hmD⟩

/-- Witness for C10: on the sample state exactly `tmp/other.txt` and the
directory `tmp` survive, and both survivor characterizations hold. -/
theorem cleanup_frame_witness :
    CleanupPre sampleFS sampleListing sampleF sampleD ∧
    ∃ fs1, cleanup_local_resources sampleFS sampleListing = .ok fs1 ∧
      (∀ q, q ∈ fs1.files ↔
        q ∈ sampleFS.files ∧ ¬ tmpRootP <+: q ∧ q ≠ archiveP ∧ q ≠ logP) ∧
      (∀ q, q ∈ fs1.dirs ↔ q ∈ sampleFS.dirs ∧ ¬ tmpRootP <+: q) :=
  ⟨by decide, cleanup_frame sampleFS sampleListing sampleF sampleD
    (by decide)⟩

end S3Archival
